import Mathlib

/-!
# Verification of the Otterscan SDK client core

A shallow embedding of `src/otterscan-client.ts`: the resilient RPC dispatch
layer (`makeRpcCall`), the backward address-history traversal
(`getAllTransactionsForAddress`), the forward block-transaction traversal
(`getBlockWithTransactions`), the composite read operations
(`getTransactionAnalysis`, `getContractDeployment`, `isContract`) and the
constructor's option resolution.

Modelling conventions:
* A failed remote call is an `Except.error` carrying an `RpcError` whose only
  observed field is `message` (the source only reads `error.message`).
* The underlying transport (`provider.send`) is modelled as an oracle giving
  the outcome of each successive attempt; the paging servers are oracles from
  the request cursor (block number or page index) to the returned page.
* Block numbers travel as hex strings in the source and are parsed with
  `parseInt(_, 16)` at every point of use; the hex codec is an external
  collaborator, so the embedding carries the parsed numeric value directly.
* The unbounded `while` loops are embedded as fuel-indexed recursions that
  return `none` on fuel exhaustion; every theorem about a loop takes the
  successful (`some`) outcome as hypothesis or provides enough fuel.
* Real time (`setTimeout` delays) is not observable in the embedding; the
  inter-attempt delay affects timing only, never values.
-/

namespace Otterscan

/-- An error raised by a remote call; only its `message` is ever inspected
by `otterscan-client.ts` (`lastError.message`). -/
structure RpcError where
  message : String
deriving DecidableEq, Repr

/-- The raw constructor options (`OtterscanClientOptions`): every field is
optional, `none` models a JavaScript `undefined`. -/
structure OtterscanClientOptions where
  timeout : Option Int := none
  retries : Option Int := none
  retryDelay : Option Int := none
deriving DecidableEq, Repr

/-- The resolved options stored on the client
(`Required<OtterscanClientOptions>`). -/
structure ResolvedOptions where
  timeout : Int
  retries : Int
  retryDelay : Int
deriving DecidableEq, Repr

/-- JavaScript `x || d` on an optional number: an absent value and the falsy
number `0` fall back to the default `d`; every other number (negative ones
included) is kept. -/
def jsOrDefault : Option Int → Int → Int
  | none, d => d
  | some v, d => if v = 0 then d else v

/-- The option resolution performed by the `OtterscanClient` constructor:
`timeout: options.timeout || 30000, retries: options.retries || 3,
retryDelay: options.retryDelay || 1000`. -/
def resolveOptions (o : OtterscanClientOptions) : ResolvedOptions :=
  { timeout := jsOrDefault o.timeout 30000
    retries := jsOrDefault o.retries 3
    retryDelay := jsOrDefault o.retryDelay 1000 }

/-- The retry loop of `makeRpcCall`: `for (let attempt = 0; attempt < retries;
attempt++)` with the i-th transport invocation's outcome given by the oracle
`transport i`. Returns the loop's outcome (the result of the first successful
attempt, or the last observed error once the budget is exhausted — the
incoming `lastError` if no attempt runs at all) together with the number of
transport invocations made. -/
def rpcAttempts (transport : Nat → Except RpcError α) :
    Nat → Nat → RpcError → Except RpcError α × Nat
  | 0, _, lastError => (.error lastError, 0)
  | fuel + 1, i, _ =>
    match transport i with
    | .ok v => (.ok v, 1)
    | .error e =>
      let r := rpcAttempts transport fuel (i + 1) e
      (r.1, r.2 + 1)

/-- `makeRpcCall`: run up to `opts.retries` attempts (the JavaScript loop
`attempt < retries` runs `max(retries, 0)` times, hence `Int.toNat`); on
success return the result, otherwise raise the single aggregated failure
`RPC call failed after N attempts: <last message>` initialised from
`lastError = Error('Unknown error')`. The second component counts transport
invocations. -/
def makeRpcCall (opts : ResolvedOptions) (transport : Nat → Except RpcError α) :
    Except RpcError α × Nat :=
  let r := rpcAttempts transport opts.retries.toNat 0 ⟨"Unknown error"⟩
  match r.1 with
  | .ok v => (.ok v, r.2)
  | .error last =>
    (.error ⟨"RPC call failed after " ++ toString opts.retries ++
        " attempts: " ++ last.message⟩, r.2)

/-- `isContract`: `try { return await this.hasCode(...) } catch { return
false }`, where `hasCode` is a single dispatcher call. -/
def isContract (opts : ResolvedOptions) (transport : Nat → Except RpcError Bool) :
    Bool :=
  match (makeRpcCall opts transport).1 with
  | .ok b => b
  | .error _ => false

/-- The record returned by `getTransactionAnalysis`; payload types are opaque
to the client and kept as type parameters. -/
structure TransactionAnalysis (τ ι ε : Type) where
  trace : Option τ
  internalOps : List ι
  error : Option ε
deriving DecidableEq, Repr

/-- `getTransactionAnalysis`: three sub-reads issued through
`Promise.allSettled`; the error read additionally carries `.catch(() => null)`
so its settled outcome is always fulfilled. A rejected sub-read is replaced by
its neutral default (`null` / `[]` / `null`). -/
def getTransactionAnalysis (traceRes : Except RpcError τ)
    (opsRes : Except RpcError (List ι)) (errRes : Except RpcError ε) :
    TransactionAnalysis τ ι ε :=
  let errSettled : Except RpcError (Option ε) :=
    match errRes with
    | .ok v => .ok (some v)
    | .error _ => .ok none
  { trace := match traceRes with | .ok v => some v | .error _ => none
    internalOps := match opsRes with | .ok v => v | .error _ => []
    error := match errSettled with | .ok v => v | .error _ => none }

/-- Contract creator information (`ContractCreator`). -/
structure ContractCreator where
  hash : String
  creator : String
deriving DecidableEq, Repr

/-- The record returned by `getContractDeployment`; the transaction and trace
payloads are opaque type parameters. -/
structure ContractDeployment (β τ : Type) where
  creator : ContractCreator
  transaction : Option β
  trace : Option τ
deriving DecidableEq, Repr

/-- `getContractDeployment`: `await this.getContractCreator(...)` is issued
first and unprotected — its failure propagates. Only the subsequent
transaction and trace fetches go through `Promise.allSettled` and degrade to
`null` on rejection. -/
def getContractDeployment (creatorRes : Except RpcError ContractCreator)
    (getTx : String → Except RpcError β) (traceTx : String → Except RpcError τ) :
    Except RpcError (ContractDeployment β τ) :=
  match creatorRes with
  | .error e => .error e
  | .ok creator =>
    .ok { creator := creator
          transaction :=
            match getTx creator.hash with | .ok v => some v | .error _ => none
          trace :=
            match traceTx creator.hash with | .ok v => some v | .error _ => none }

/-- A transaction record, reduced to the two fields the traversal engine
inspects: the block number (hex string in the source, parsed with
`parseInt(_, 16)` at every use) and the identifying hash. -/
structure TransactionDetails where
  hash : String
  blockNumber : Nat
deriving DecidableEq, Repr

/-- One page of address history (`AddressTransactionPage`): the records plus
the server's `firstPage` / `lastPage` flags. -/
structure AddressTransactionPage where
  txs : List TransactionDetails
  firstPage : Bool
  lastPage : Bool
deriving DecidableEq, Repr

/-- One page of a block's transactions (`BlockTransactionPage`). -/
structure BlockTransactionPage where
  txs : List TransactionDetails
  firstPage : Bool
  lastPage : Bool
deriving DecidableEq, Repr

/-- The per-page range filter of `getAllTransactionsForAddress`:
`page.txs.filter((tx) => parseInt(tx.blockNumber, 16) >= fromBlockNum)`. -/
def txRangeFilter (fromBlock : Nat) (txs : List TransactionDetails) :
    List TransactionDetails :=
  txs.filter (fun tx => decide (fromBlock ≤ tx.blockNumber))

/-- The `while (hasMore)` loop of `getAllTransactionsForAddress`. The paging
server is the oracle `server : Int → AddressTransactionPage` mapping the
current cursor (`searchTransactionsBefore`'s block argument, numerically) to
the returned page; the cursor lives in `Int` because the source computes
`earliestBlockNum - 1`, which can go below zero. The result keeps the
filtered records page by page (`r.1`, whose flattening is the source's
`allTransactions` accumulator before the final sort) together with the list
of cursors requested (`r.2`, one per issued page request, in order). `none`
means the fuel ran out before the loop terminated. -/
def backwardRun (server : Int → AddressTransactionPage) (fromBlock : Nat) :
    Nat → Int → Option (List (List TransactionDetails) × List Int)
  | 0, _ => none
  | fuel + 1, cursor =>
    let page := server cursor
    if page.txs.length = 0 then
      some ([], [cursor])
    else
      let filteredTxs := txRangeFilter fromBlock page.txs
      if page.firstPage || filteredTxs.length < page.txs.length then
        some ([filteredTxs], [cursor])
      else
        let earliestTx := page.txs.getLastD ⟨"", 0⟩
        match backwardRun server fromBlock fuel ((earliestTx.blockNumber : Int) - 1) with
        | none => none
        | some r => some (filteredTxs :: r.1, cursor :: r.2)

/-- Insertion step of the final sort, keyed like the source comparator
`(a, b) => parseInt(a.blockNumber, 16) - parseInt(b.blockNumber, 16)`;
inserting after equal keys reproduces the stability of `Array.prototype.sort`. -/
def insertByBlock (tx : TransactionDetails) :
    List TransactionDetails → List TransactionDetails
  | [] => [tx]
  | t :: ts =>
    if tx.blockNumber < t.blockNumber then tx :: t :: ts
    else t :: insertByBlock tx ts

/-- The final ascending sort `allTransactions.sort(...)` by block number. -/
def sortByBlockNumber (l : List TransactionDetails) : List TransactionDetails :=
  l.foldr insertByBlock []

/-- `getAllTransactionsForAddress` with numeric `fromBlock` / `toBlock`
(`'earliest'` normalises to `0`): run the backward loop starting at cursor
`toBlock`, then sort the accumulated records ascending by block number. -/
def getAllTransactionsForAddress (server : Int → AddressTransactionPage)
    (fromBlock toBlock : Nat) (fuel : Nat) : Option (List TransactionDetails) :=
  (backwardRun server fromBlock fuel (toBlock : Int)).map
    (fun r => sortByBlockNumber r.1.flatten)

/-- The `while (hasMore)` loop of `getBlockWithTransactions`: request page
`pageNumber`, append `page.txs` unconditionally, stop when `page.lastPage`,
otherwise increment the page index. The server oracle maps the page index to
the returned page; the result is the aggregate plus the list of page indices
requested, in order; `none` means fuel exhaustion. -/
def forwardRun (server : Nat → BlockTransactionPage) :
    Nat → Nat → Option (List TransactionDetails × List Nat)
  | 0, _ => none
  | fuel + 1, pageNumber =>
    let page := server pageNumber
    if page.lastPage then
      some (page.txs, [pageNumber])
    else
      match forwardRun server fuel (pageNumber + 1) with
      | none => none
      | some r => some (page.txs ++ r.1, pageNumber :: r.2)

/-- The transaction aggregate of `getBlockWithTransactions`, starting at page
index 0. (The block-details fetch bundled in the source's return value is an
independent pass-through read and carries no traversal logic.) -/
def getBlockWithTransactions (server : Nat → BlockTransactionPage)
    (fuel : Nat) : Option (List TransactionDetails) :=
  (forwardRun server fuel 0).map (fun r => r.1)

/-! ## Dispatcher lemmas -/

/-- If every attempt in the budget fails, the retry loop returns the error of
the last attempt (the incoming one if the budget is zero) and makes exactly
`n` transport invocations. -/
theorem rpcAttempts_fail (transport : Nat → Except RpcError α) (errs : Nat → RpcError) :
    ∀ (n i : Nat) (e₀ : RpcError),
      (∀ j, j < n → transport (i + j) = Except.error (errs (i + j))) →
      rpcAttempts transport n i e₀ =
        (Except.error (if n = 0 then e₀ else errs (i + n - 1)), n) := by
  intro n
  induction n with
  | zero =>
    intro i e₀ h
    simp [rpcAttempts]
  | succ n ih =>
    intro i e₀ h
    have h0 := h 0 (by omega)
    rw [Nat.add_zero] at h0
    have hrec := ih (i + 1) (errs i) (fun j hj => by
      have hx := h (j + 1) (by omega)
      rwa [show i + (j + 1) = i + 1 + j by omega] at hx)
    simp only [rpcAttempts, h0, hrec]
    rcases n with _ | m
    · simp
    · have hidx : i + 1 + (m + 1) - 1 = i + (m + 1 + 1) - 1 := by omega
      simp [hidx]

/-- C1: for a dispatcher configured with `maxAttempts = N ≥ 1`, a call whose
every attempt fails invokes the underlying transport exactly N times (the
second component counts invocations) and yields exactly one terminal failure
whose message reports the attempt count and the message of the last observed
failure only. -/
theorem retry_bound (opts : ResolvedOptions) (transport : Nat → Except RpcError α)
    (errs : Nat → RpcError) (hN : 1 ≤ opts.retries)
    (hfail : ∀ i, i < opts.retries.toNat → transport i = Except.error (errs i)) :
    makeRpcCall opts transport =
      (Except.error ⟨"RPC call failed after " ++ toString opts.retries ++
          " attempts: " ++ (errs (opts.retries.toNat - 1)).message⟩,
        opts.retries.toNat) := by
  have hloop := rpcAttempts_fail transport errs opts.retries.toNat 0 ⟨"Unknown error"⟩
    (fun j hj => by simpa using hfail j hj)
  have hne : opts.retries.toNat ≠ 0 := by omega
  rw [if_neg hne] at hloop
  simp only [Nat.zero_add] at hloop
  simp [makeRpcCall, hloop]

/-- C1 witness: three attempts, all failing with message `boom`. -/
theorem retry_bound_witness :
    makeRpcCall ⟨30000, 3, 1000⟩ (fun _ => (Except.error ⟨"boom"⟩ : Except RpcError Nat)) =
      (Except.error ⟨"RPC call failed after 3 attempts: boom"⟩, 3) := by
  have h := retry_bound ⟨30000, 3, 1000⟩
    (fun _ => (Except.error ⟨"boom"⟩ : Except RpcError Nat))
    (fun _ => ⟨"boom"⟩) (by decide) (fun _ _ => rfl)
  simpa using h

/-- C9: the configured `timeout` value never influences the dispatcher. The
source stores `options.timeout` in the constructor but no code path reads it
(`provider.send` is awaited with no timing bound), so the dispatcher's
outcome and invocation count are identical for any two timeout values. -/
theorem timeout_ignored (opts : ResolvedOptions) (t : Int)
    (transport : Nat → Except RpcError α) :
    makeRpcCall { opts with timeout := t } transport = makeRpcCall opts transport :=
  rfl

/-- C10: `isContract` never raises — it is total into `Bool`; when the
underlying `hasCode` dispatcher call fails it returns `false`, when the call
succeeds it returns the transported Boolean, and in particular when every
retry attempt fails it returns `false`. -/
theorem isContract_never_raises (opts : ResolvedOptions)
    (transport : Nat → Except RpcError Bool) (errs : Nat → RpcError) :
    (∀ e, (makeRpcCall opts transport).1 = Except.error e →
        isContract opts transport = false) ∧
    (∀ b, (makeRpcCall opts transport).1 = Except.ok b →
        isContract opts transport = b) ∧
    ((∀ i, i < opts.retries.toNat → transport i = Except.error (errs i)) →
        isContract opts transport = false) := by
  refine ⟨fun e he => by simp [isContract, he], fun b hb => by simp [isContract, hb], ?_⟩
  intro hfail
  have hloop := rpcAttempts_fail transport errs opts.retries.toNat 0 ⟨"Unknown error"⟩
    (fun j hj => by simpa using hfail j hj)
  simp [isContract, makeRpcCall, hloop]

/-- C10 witness: a transport that always fails makes `isContract` report
`false`. -/
theorem isContract_never_raises_witness :
    isContract ⟨30000, 3, 1000⟩ (fun _ => Except.error ⟨"down"⟩) = false :=
  (isContract_never_raises ⟨30000, 3, 1000⟩ (fun _ => Except.error ⟨"down"⟩)
    (fun _ => ⟨"down"⟩)).2.2 (fun _ _ => rfl)

/-! ## Composite read operations -/

/-- C7 counterexample: in `getContractDeployment` the contract-creator lookup
is a constituent sub-read, and its failure is NOT swallowed — it propagates to
the caller unchanged instead of degrading to a neutral default. -/
theorem composite_subread_counterexample :
    getContractDeployment (Except.error ⟨"creator lookup failed"⟩)
        (fun _ => (Except.ok 0 : Except RpcError Nat))
        (fun _ => (Except.ok 0 : Except RpcError Nat)) =
      Except.error ⟨"creator lookup failed"⟩ :=
  rfl

/-- C7 amended: in `getTransactionAnalysis` every failing sub-read is
replaced by its neutral default (`none` / `[]` / `none`) and never propagates;
in `getContractDeployment` the concurrently issued transaction and trace
sub-reads likewise degrade to `none`, but a failure of the prerequisite
contract-creator lookup propagates to the caller. -/
theorem composite_subread_policy {τ ι ε β : Type} (e₁ e₂ e₃ e : RpcError)
    (trRes : Except RpcError τ) (opsRes : Except RpcError (List ι))
    (erRes : Except RpcError ε) (crt : ContractCreator)
    (getTx : String → Except RpcError β) (traceTx : String → Except RpcError τ) :
    (getTransactionAnalysis (Except.error e₁ : Except RpcError τ) opsRes erRes).trace = none ∧
    (getTransactionAnalysis trRes (Except.error e₂ : Except RpcError (List ι)) erRes).internalOps = [] ∧
    (getTransactionAnalysis trRes opsRes (Except.error e₃ : Except RpcError ε)).error = none ∧
    getContractDeployment (Except.ok crt) (fun _ => (Except.error e₁ : Except RpcError β))
        (fun _ => (Except.error e₂ : Except RpcError τ)) =
      Except.ok ⟨crt, none, none⟩ ∧
    getContractDeployment (Except.error e) getTx traceTx =
      (Except.error e : Except RpcError (ContractDeployment β τ)) :=
  ⟨rfl, rfl, rfl, rfl, rfl⟩

/-! ## Option resolution -/

/-- C8 counterexample: a negative configured retry count is neither rejected
nor clamped by the constructor — it is stored unchanged, so the effective
attempt count can be below 1. -/
theorem options_clamp_counterexample :
    (resolveOptions { timeout := none, retries := some (-2), retryDelay := none }).retries = -2 ∧
    ¬ 1 ≤ (resolveOptions { timeout := none, retries := some (-2), retryDelay := none }).retries := by
  exact ⟨rfl, by decide⟩

/-- C8 amended: at construction time an absent or zero retry count / retry
delay is replaced by the positive default, so the effective attempt count is
≥ 1 and the effective delay is ≥ 0 whenever every supplied value is
non-negative; a negative supplied value, however, is stored unchanged. -/
theorem options_resolution (o : OtterscanClientOptions) :
    ((∀ v, o.retries = some v → 0 ≤ v) → 1 ≤ (resolveOptions o).retries) ∧
    ((∀ v, o.retryDelay = some v → 0 ≤ v) → 0 ≤ (resolveOptions o).retryDelay) ∧
    (∀ v, v < 0 → o.retries = some v → (resolveOptions o).retries = v) ∧
    (∀ v, v < 0 → o.retryDelay = some v → (resolveOptions o).retryDelay = v) := by
  refine ⟨?_, ?_, ?_, ?_⟩
  · intro h
    rcases hr : o.retries with _ | v
    · simp [resolveOptions, jsOrDefault, hr]
    · have hv := h v hr
      simp only [resolveOptions, jsOrDefault, hr]
      split
      · omega
      · omega
  · intro h
    rcases hr : o.retryDelay with _ | v
    · simp [resolveOptions, jsOrDefault, hr]
    · have hv := h v hr
      simp only [resolveOptions, jsOrDefault, hr]
      split
      · omega
      · omega
  · intro v hv hr
    simp only [resolveOptions, jsOrDefault, hr]
    split
    · omega
    · rfl
  · intro v hv hr
    simp only [resolveOptions, jsOrDefault, hr]
    split
    · omega
    · rfl

/-- C8 amended witness: supplying `retries = 5` and `retryDelay = 0` yields
effective `retries = 5 ≥ 1` and `retryDelay = 1000 ≥ 0`. -/
theorem options_resolution_witness :
    1 ≤ (resolveOptions { timeout := none, retries := some 5, retryDelay := some 0 }).retries ∧
    0 ≤ (resolveOptions { timeout := none, retries := some 5, retryDelay := some 0 }).retryDelay :=
  ⟨(options_resolution _).1 (fun v hv => by cases hv; decide),
   (options_resolution _).2.1 (fun v hv => by cases hv; decide)⟩

/-! ## Backward traversal lemmas -/

/-- `getLastD` of a nonempty list is a member of the list. -/
theorem getLastD_mem_of_ne_nil {α : Type} :
    ∀ (l : List α) (d : α), l ≠ [] → l.getLastD d ∈ l := by
  intro l
  induction l with
  | nil => intro d h; exact absurd rfl h
  | cons a ts ih =>
    intro d _
    rw [List.getLastD_cons]
    cases ts with
    | nil => simp [List.getLastD]
    | cons b ts' => exact List.mem_cons_of_mem a (ih a (by simp))

/-- In a page sorted descending by block number, the last record has the
lowest block number. -/
theorem getLastD_min_of_desc :
    ∀ (l : List TransactionDetails),
      List.Pairwise (fun a b => b.blockNumber ≤ a.blockNumber) l →
      ∀ (d : TransactionDetails), ∀ tx ∈ l,
        (l.getLastD d).blockNumber ≤ tx.blockNumber := by
  intro l
  induction l with
  | nil => intro _ d tx htx; simp at htx
  | cons a ts ih =>
    intro h d tx htx
    rcases List.pairwise_cons.mp h with ⟨ha, hts⟩
    rw [List.getLastD_cons]
    rcases List.mem_cons.mp htx with heq | htx
    · rw [heq]
      cases ts with
      | nil => simp [List.getLastD]
      | cons b ts' =>
        exact ha _ (getLastD_mem_of_ne_nil (b :: ts') a (by simp))
    · exact ih hts a tx htx

/-- Inversion of one step of the backward traversal loop: a successful step
is an empty-page stop, a flagged/filtered stop, or a continuation whose next
cursor is one less than the block number of the page's last record. -/
theorem backwardRun_succ_cases (server : Int → AddressTransactionPage)
    (fromBlock : Nat) (fuel : Nat) (cursor : Int)
    (r : List (List TransactionDetails) × List Int)
    (h : backwardRun server fromBlock (fuel + 1) cursor = some r) :
    ((server cursor).txs.length = 0 ∧ r = ([], [cursor])) ∨
    ((server cursor).txs.length ≠ 0 ∧
      ((server cursor).firstPage = true ∨
        (txRangeFilter fromBlock (server cursor).txs).length < (server cursor).txs.length) ∧
      r = ([txRangeFilter fromBlock (server cursor).txs], [cursor])) ∨
    ((server cursor).txs.length ≠ 0 ∧
      (server cursor).firstPage = false ∧
      ¬ (txRangeFilter fromBlock (server cursor).txs).length < (server cursor).txs.length ∧
      ∃ r', backwardRun server fromBlock fuel
            ((((server cursor).txs.getLastD ⟨"", 0⟩).blockNumber : Int) - 1) = some r' ∧
        r = (txRangeFilter fromBlock (server cursor).txs :: r'.1, cursor :: r'.2)) := by
  simp only [backwardRun] at h
  by_cases h0 : (server cursor).txs.length = 0
  · rw [if_pos h0] at h
    exact Or.inl ⟨h0, by injection h with h; exact h.symm⟩
  · rw [if_neg h0] at h
    by_cases h1 : ((server cursor).firstPage ||
        decide ((txRangeFilter fromBlock (server cursor).txs).length < (server cursor).txs.length)) = true
    · rw [if_pos h1] at h
      refine Or.inr (Or.inl ⟨h0, ?_, by injection h with h; exact h.symm⟩)
      simpa [Bool.or_eq_true, decide_eq_true_eq] using h1
    · rw [if_neg h1] at h
      simp only [Bool.or_eq_true, decide_eq_true_eq, not_or] at h1
      cases hrec : backwardRun server fromBlock fuel
          ((((server cursor).txs.getLastD ⟨"", 0⟩).blockNumber : Int) - 1) with
      | none => rw [hrec] at h; exact absurd h (by simp)
      | some r' =>
        rw [hrec] at h
        refine Or.inr (Or.inr ⟨h0, ?_, h1.2, r', rfl, by injection h with h; exact h.symm⟩)
        cases hfp : (server cursor).firstPage
        · rfl
        · exact absurd hfp h1.1

/-- Every successful run's request log starts with the initial cursor. -/
theorem backwardRun_cursors_head (server : Int → AddressTransactionPage)
    (fromBlock fuel : Nat) (cursor : Int)
    (r : List (List TransactionDetails) × List Int)
    (h : backwardRun server fromBlock fuel cursor = some r) :
    ∃ tl, r.2 = cursor :: tl := by
  cases fuel with
  | zero => simp [backwardRun] at h
  | succ fuel =>
    rcases backwardRun_succ_cases server fromBlock fuel cursor r h with
      ⟨_, hr⟩ | ⟨_, _, hr⟩ | ⟨_, _, _, r', _, hr⟩
    · exact ⟨[], by rw [hr]⟩
    · exact ⟨[], by rw [hr]⟩
    · exact ⟨r'.2, by rw [hr]⟩

/-- Under the server's `before cursor` contract, every collected record's
block number is strictly below the cursor the run started from. -/
theorem backwardRun_blocks_lt (server : Int → AddressTransactionPage)
    (fromBlock : Nat)
    (Hserver : ∀ c : Int, ∀ tx ∈ (server c).txs, (tx.blockNumber : Int) < c) :
    ∀ (fuel : Nat) (cursor : Int) pages cursors,
      backwardRun server fromBlock fuel cursor = some (pages, cursors) →
      ∀ p ∈ pages, ∀ tx ∈ p, (tx.blockNumber : Int) < cursor := by
  intro fuel
  induction fuel with
  | zero => intro cursor pages cursors h; simp [backwardRun] at h
  | succ fuel ih =>
    intro cursor pages cursors h p hp tx htx
    rcases backwardRun_succ_cases server fromBlock fuel cursor _ h with
      ⟨_, hr⟩ | ⟨_, _, hr⟩ | ⟨hne, _, _, r', hrec, hr⟩
    · simp only [Prod.mk.injEq] at hr
      rw [hr.1] at hp
      simp at hp
    · simp only [Prod.mk.injEq] at hr
      rw [hr.1] at hp
      rcases List.mem_singleton.mp hp with rfl
      exact Hserver cursor tx (List.mem_filter.mp htx).1
    · simp only [Prod.mk.injEq] at hr
      rw [hr.1] at hp
      rcases List.mem_cons.mp hp with rfl | hp
      · exact Hserver cursor tx (List.mem_filter.mp htx).1
      · have hlast : ((server cursor).txs.getLastD ⟨"", 0⟩) ∈ (server cursor).txs :=
          getLastD_mem_of_ne_nil _ _ (by
            intro hnil
            exact hne (by rw [hnil]; rfl))
        have hlt := Hserver cursor _ hlast
        have htail := ih _ r'.1 r'.2 hrec p hp tx htx
        omega

/-- Unconditionally, every collected record passed the per-page lower-bound
filter. -/
theorem backwardRun_blocks_ge (server : Int → AddressTransactionPage)
    (fromBlock : Nat) :
    ∀ (fuel : Nat) (cursor : Int) pages cursors,
      backwardRun server fromBlock fuel cursor = some (pages, cursors) →
      ∀ p ∈ pages, ∀ tx ∈ p, fromBlock ≤ tx.blockNumber := by
  intro fuel
  induction fuel with
  | zero => intro cursor pages cursors h; simp [backwardRun] at h
  | succ fuel ih =>
    intro cursor pages cursors h p hp tx htx
    rcases backwardRun_succ_cases server fromBlock fuel cursor _ h with
      ⟨_, hr⟩ | ⟨_, _, hr⟩ | ⟨_, _, _, r', hrec, hr⟩
    · simp only [Prod.mk.injEq] at hr
      rw [hr.1] at hp
      simp at hp
    · simp only [Prod.mk.injEq] at hr
      rw [hr.1] at hp
      rcases List.mem_singleton.mp hp with rfl
      exact of_decide_eq_true (List.mem_filter.mp htx).2
    · simp only [Prod.mk.injEq] at hr
      rw [hr.1] at hp
      rcases List.mem_cons.mp hp with rfl | hp
      · exact of_decide_eq_true (List.mem_filter.mp htx).2
      · exact ih _ r'.1 r'.2 hrec p hp tx htx

/-! ## Sorting lemmas -/

/-- Inserting is a permutation of consing. -/
theorem insertByBlock_perm (tx : TransactionDetails) :
    ∀ l, List.Perm (insertByBlock tx l) (tx :: l) := by
  intro l
  induction l with
  | nil => simp [insertByBlock]
  | cons t ts ih =>
    simp only [insertByBlock]
    split
    · exact List.Perm.refl _
    · exact (ih.cons t).trans (List.Perm.swap tx t ts)

/-- The final sort permutes the aggregate. -/
theorem sortByBlockNumber_perm (l : List TransactionDetails) :
    List.Perm (sortByBlockNumber l) l := by
  induction l with
  | nil => simp [sortByBlockNumber]
  | cons t ts ih =>
    show List.Perm (insertByBlock t (sortByBlockNumber ts)) (t :: ts)
    exact (insertByBlock_perm t (sortByBlockNumber ts)).trans (ih.cons t)

/-- Inserting preserves ascending order by block number. -/
theorem insertByBlock_sorted (tx : TransactionDetails) :
    ∀ l, List.Pairwise (fun a b => a.blockNumber ≤ b.blockNumber) l →
      List.Pairwise (fun a b => a.blockNumber ≤ b.blockNumber) (insertByBlock tx l) := by
  intro l
  induction l with
  | nil => intro _; simp [insertByBlock]
  | cons t ts ih =>
    intro h
    rcases List.pairwise_cons.mp h with ⟨ht, hts⟩
    simp only [insertByBlock]
    split
    · rename_i hlt
      refine List.pairwise_cons.mpr ⟨?_, h⟩
      intro b hb
      rcases List.mem_cons.mp hb with rfl | hb
      · omega
      · have := ht b hb
        omega
    · rename_i hnlt
      refine List.pairwise_cons.mpr ⟨?_, ih hts⟩
      intro b hb
      have hb' := (insertByBlock_perm tx ts).mem_iff.mp hb
      rcases List.mem_cons.mp hb' with rfl | hb'
      · omega
      · exact ht b hb'

/-- The final sort is ascending by block number. -/
theorem sortByBlockNumber_sorted (l : List TransactionDetails) :
    List.Pairwise (fun a b => a.blockNumber ≤ b.blockNumber) (sortByBlockNumber l) := by
  induction l with
  | nil => simp [sortByBlockNumber]
  | cons t ts ih => exact insertByBlock_sorted t (sortByBlockNumber ts) ih

/-! ## Backward traversal theorems -/

/-- C2: if the server honours the `before cursor` contract (every record in a
page is strictly below the requested cursor), every record of the backward
traversal's aggregate — already page by page as each page is filtered, and in
the final sorted result — has its block number within `[fromBlock, toBlock]`
inclusive. -/
theorem backward_range_invariant (server : Int → AddressTransactionPage)
    (fromBlock toBlock fuel : Nat)
    (Hserver : ∀ c : Int, ∀ tx ∈ (server c).txs, (tx.blockNumber : Int) < c) :
    (∀ pages cursors,
        backwardRun server fromBlock fuel (toBlock : Int) = some (pages, cursors) →
        ∀ p ∈ pages, ∀ tx ∈ p, fromBlock ≤ tx.blockNumber ∧ tx.blockNumber ≤ toBlock) ∧
    (∀ res, getAllTransactionsForAddress server fromBlock toBlock fuel = some res →
        ∀ tx ∈ res, fromBlock ≤ tx.blockNumber ∧ tx.blockNumber ≤ toBlock) := by
  have hmain : ∀ pages cursors,
      backwardRun server fromBlock fuel (toBlock : Int) = some (pages, cursors) →
      ∀ p ∈ pages, ∀ tx ∈ p, fromBlock ≤ tx.blockNumber ∧ tx.blockNumber ≤ toBlock := by
    intro pages cursors h p hp tx htx
    refine ⟨backwardRun_blocks_ge server fromBlock fuel _ pages cursors h p hp tx htx, ?_⟩
    have hlt := backwardRun_blocks_lt server fromBlock Hserver fuel _ pages cursors h p hp tx htx
    omega
  refine ⟨hmain, ?_⟩
  intro res hres tx htx
  unfold getAllTransactionsForAddress at hres
  cases hrun : backwardRun server fromBlock fuel (toBlock : Int) with
  | none => rw [hrun] at hres; simp at hres
  | some r =>
    rw [hrun] at hres
    have hres' : sortByBlockNumber r.1.flatten = res := by simpa using hres
    have htx' : tx ∈ r.1.flatten := by
      rw [← hres'] at htx
      exact (sortByBlockNumber_perm r.1.flatten).mem_iff.mp htx
    rcases List.mem_flatten.mp htx' with ⟨p, hp, htxp⟩
    exact hmain r.1 r.2 hrun p hp tx htxp

/-- A one-page server used to witness C2: the only nonempty page sits at
cursor 5 and contains a single record at block 3. -/
def serverC2 : Int → AddressTransactionPage :=
  fun c =>
    if c = 5 then { txs := [⟨"a", 3⟩], firstPage := true, lastPage := false }
    else { txs := [], firstPage := false, lastPage := false }

/-- C2 witness: running the traversal on `serverC2` over `[0, 5]` returns the
record at block 3, which the theorem places inside the range. -/
theorem backward_range_invariant_witness :
    0 ≤ (⟨"a", 3⟩ : TransactionDetails).blockNumber ∧
      (⟨"a", 3⟩ : TransactionDetails).blockNumber ≤ 5 := by
  have H : ∀ c : Int, ∀ tx ∈ (serverC2 c).txs, (tx.blockNumber : Int) < c := by
    intro c tx htx
    by_cases hc : c = 5
    · subst hc
      simp [serverC2] at htx
      subst htx
      decide
    · simp [serverC2, hc] at htx
  exact (backward_range_invariant serverC2 0 5 1 H).2 [⟨"a", 3⟩] (by rfl)
    ⟨"a", 3⟩ (by simp)

/-- A server whose page at cursor 20 is not in descending block order
(blocks 5 then 10); every other cursor returns an empty page. -/
def serverC3 : Int → AddressTransactionPage :=
  fun c =>
    if c = 20 then { txs := [⟨"a", 5⟩, ⟨"b", 10⟩], firstPage := false, lastPage := false }
    else { txs := [], firstPage := false, lastPage := false }

/-- C3 counterexample: on a page whose records are not in descending block
order (blocks [5, 10], lowest observed 5) the traversal requests cursor 9
next — one less than the LAST record's block number (the code indexes
`page.txs[page.txs.length - 1]`) — not 4 = (lowest observed) − 1 as the
claim states for every page contents. -/
theorem cursor_advance_counterexample :
    backwardRun serverC3 0 3 20 = some ([[⟨"a", 5⟩, ⟨"b", 10⟩]], [20, 9]) ∧
    (9 : Int) ≠ min 5 10 - 1 := by
  exact ⟨by rfl, by decide⟩

/-- C3 amended: after every successful non-terminal page, the next requested
cursor is one less than the block number of the page's last record; this
coincides with "lowest observed block − 1" only for descending pages. The
request log of every successful run starts at the initial cursor and is
chained by this rule. -/
theorem cursor_advance (server : Int → AddressTransactionPage) (fromBlock : Nat) :
    ∀ (fuel : Nat) (cursor : Int) r,
      backwardRun server fromBlock fuel cursor = some r →
      r.2.head? = some cursor ∧
      List.Chain' (fun a b =>
        b = (((server a).txs.getLastD ⟨"", 0⟩).blockNumber : Int) - 1) r.2 := by
  intro fuel
  induction fuel with
  | zero => intro cursor r h; simp [backwardRun] at h
  | succ fuel ih =>
    intro cursor r h
    rcases backwardRun_succ_cases server fromBlock fuel cursor r h with
      ⟨_, hr⟩ | ⟨_, _, hr⟩ | ⟨_, _, _, r', hrec, hr⟩
    · rw [hr]; exact ⟨rfl, by simp⟩
    · rw [hr]; exact ⟨rfl, by simp⟩
    · rcases ih _ r' hrec with ⟨hhead, hchain⟩
      rw [hr]
      refine ⟨rfl, List.chain'_cons'.mpr ⟨?_, hchain⟩⟩
      intro b hb
      rw [hhead] at hb
      simp only [Option.mem_some_iff] at hb
      rw [hb]

/-- C3 amended witness: on `serverC3`, the request log `[20, 9]` starts at
the initial cursor 20, and 9 = 10 − 1 where 10 is the block number of the
last record of the page served at cursor 20. -/
theorem cursor_advance_witness :
    (9 : Int) = (((serverC3 20).txs.getLastD ⟨"", 0⟩).blockNumber : Int) - 1 ∧
    ([20, 9] : List Int).head? = some 20 := by
  obtain ⟨hhead, hchain⟩ :=
    cursor_advance serverC3 0 3 20 ([[⟨"a", 5⟩, ⟨"b", 10⟩]], [20, 9]) (by rfl)
  exact ⟨(List.chain'_cons.mp hchain).1, hhead⟩

/-- The per-page filter drops a record exactly when the page crosses below
the lower bound. -/
theorem txRangeFilter_drops_iff (fromBlock : Nat) (txs : List TransactionDetails) :
    (txRangeFilter fromBlock txs).length < txs.length ↔
      ∃ tx ∈ txs, tx.blockNumber < fromBlock := by
  unfold txRangeFilter
  rw [List.length_filter_lt_length_iff_exists]
  constructor
  · rintro ⟨x, hx, hnx⟩
    refine ⟨x, hx, ?_⟩
    simp only [decide_eq_true_eq] at hnx
    omega
  · rintro ⟨x, hx, hlt⟩
    refine ⟨x, hx, ?_⟩
    simp only [decide_eq_true_eq]
    omega

/-- The stop condition of the backward traversal at cursor `c`: the served
page is empty, or flagged as the first page, or the lower-bound filter drops
at least one of its records (a record below `fromBlock`). -/
def backwardStop (server : Int → AddressTransactionPage) (fromBlock : Nat)
    (c : Int) : Prop :=
  (server c).txs.length = 0 ∨ (server c).firstPage = true ∨
    ∃ tx ∈ (server c).txs, tx.blockNumber < fromBlock

/-- In every successful run, the stop condition fails at every requested
cursor except the last, and holds at the last. -/
theorem backwardRun_stop_spec (server : Int → AddressTransactionPage)
    (fromBlock : Nat) :
    ∀ (fuel : Nat) (cursor : Int) pages cursors,
      backwardRun server fromBlock fuel cursor = some (pages, cursors) →
      (∀ c ∈ cursors.dropLast, ¬ backwardStop server fromBlock c) ∧
      ∃ last, cursors.getLast? = some last ∧ backwardStop server fromBlock last := by
  intro fuel
  induction fuel with
  | zero => intro cursor pages cursors h; simp [backwardRun] at h
  | succ fuel ih =>
    intro cursor pages cursors h
    rcases backwardRun_succ_cases server fromBlock fuel cursor _ h with
      ⟨hemp, hr⟩ | ⟨hne, hcond, hr⟩ | ⟨hne, hfp, hnd, r', hrec, hr⟩
    · simp only [Prod.mk.injEq] at hr
      rw [hr.2]
      refine ⟨by simp, cursor, List.getLast?_singleton cursor, Or.inl hemp⟩
    · simp only [Prod.mk.injEq] at hr
      rw [hr.2]
      refine ⟨by simp, cursor, List.getLast?_singleton cursor, Or.inr ?_⟩
      rcases hcond with hx | hdrop
      · exact Or.inl hx
      · exact Or.inr ((txRangeFilter_drops_iff fromBlock _).mp hdrop)
    · simp only [Prod.mk.injEq] at hr
      obtain ⟨tl, htl⟩ := backwardRun_cursors_head server fromBlock fuel _ r' hrec
      obtain ⟨hnotail, last, hlast, hstop⟩ := ih _ r'.1 r'.2 hrec
      have hnothead : ¬ backwardStop server fromBlock cursor := by
        rintro (hx | hx | hx)
        · exact hne hx
        · rw [hfp] at hx
          exact absurd hx (by simp)
        · exact hnd ((txRangeFilter_drops_iff fromBlock _).mpr hx)
      rw [hr.2, htl]
      constructor
      · rw [List.dropLast_cons₂]
        intro c hc
        rcases List.mem_cons.mp hc with heq | hc
        · rw [heq]
          exact hnothead
        · exact hnotail c (by rw [htl]; exact hc)
      · refine ⟨last, ?_, hstop⟩
        rw [List.getLast?_cons_cons, ← htl, hlast]

/-- C4: the backward traversal stops requesting further pages exactly when
the fetched page is empty, flagged as the first page, or had at least one
record dropped by the lower-bound filter: in every successful run the stop
condition fails at every requested cursor but the last and holds at the last
(so `fromBlock` falling strictly inside a page's block range stops the run
even with `firstPage = false`). An empty first page yields the empty
aggregate with exactly one request issued. -/
theorem backward_termination (server : Int → AddressTransactionPage)
    (fromBlock toBlock : Nat) (fuel : Nat) :
    (∀ pages cursors,
        backwardRun server fromBlock fuel (toBlock : Int) = some (pages, cursors) →
        (∀ c ∈ cursors.dropLast, ¬ backwardStop server fromBlock c) ∧
        ∃ last, cursors.getLast? = some last ∧ backwardStop server fromBlock last) ∧
    ((server (toBlock : Int)).txs.length = 0 →
        backwardRun server fromBlock (fuel + 1) (toBlock : Int) =
          some ([], [(toBlock : Int)]) ∧
        getAllTransactionsForAddress server fromBlock toBlock (fuel + 1) = some []) := by
  constructor
  · intro pages cursors h
    exact backwardRun_stop_spec server fromBlock fuel _ pages cursors h
  · intro hemp
    have h1 : backwardRun server fromBlock (fuel + 1) (toBlock : Int) =
        some ([], [(toBlock : Int)]) := by
      simp only [backwardRun]
      rw [if_pos hemp]
    refine ⟨h1, ?_⟩
    unfold getAllTransactionsForAddress
    rw [h1]
    rfl

/-- A one-page server used to witness C4: the page at cursor 200 straddles
the lower bound 100 (records at blocks 140 and 90) and is not flagged as the
first page. -/
def serverC4 : Int → AddressTransactionPage :=
  fun c =>
    if c = 200 then { txs := [⟨"x", 140⟩, ⟨"y", 90⟩], firstPage := false, lastPage := false }
    else { txs := [], firstPage := false, lastPage := false }

/-- C4 witness (boundary truncation): with `fromBlock = 100` strictly inside
the page's block range, the run issues the single request at cursor 200 and
the stop condition holds there even though `firstPage` is false. -/
theorem backward_termination_witness :
    ([(200 : Int)] : List Int).getLast? = some (200 : Int) ∧
      backwardStop serverC4 100 200 := by
  obtain ⟨-, last, hlast, hstop⟩ :=
    (backward_termination serverC4 100 200 3).1 [[⟨"x", 140⟩]] [200] (by rfl)
  rw [List.getLast?_singleton] at hlast
  have h200 : last = (200 : Int) := by
    injection hlast with h
    exact h.symm
  rw [h200] at hstop
  exact ⟨List.getLast?_singleton _, hstop⟩

/-- Under the `before cursor` contract and descending-ordered pages, every
later page's records have strictly smaller block numbers than every record of
every earlier page. -/
theorem backwardRun_pages_desc (server : Int → AddressTransactionPage)
    (fromBlock : Nat)
    (Hserver : ∀ c : Int, ∀ tx ∈ (server c).txs, (tx.blockNumber : Int) < c)
    (Hdesc : ∀ c : Int,
      List.Pairwise (fun a b => b.blockNumber ≤ a.blockNumber) (server c).txs) :
    ∀ (fuel : Nat) (cursor : Int) pages cursors,
      backwardRun server fromBlock fuel cursor = some (pages, cursors) →
      List.Pairwise (fun p q => ∀ a ∈ p, ∀ b ∈ q, b.blockNumber < a.blockNumber) pages := by
  intro fuel
  induction fuel with
  | zero => intro cursor pages cursors h; simp [backwardRun] at h
  | succ fuel ih =>
    intro cursor pages cursors h
    rcases backwardRun_succ_cases server fromBlock fuel cursor _ h with
      ⟨_, hr⟩ | ⟨_, _, hr⟩ | ⟨hne, _, _, r', hrec, hr⟩
    · simp only [Prod.mk.injEq] at hr
      rw [hr.1]
      simp
    · simp only [Prod.mk.injEq] at hr
      rw [hr.1]
      simp
    · simp only [Prod.mk.injEq] at hr
      rw [hr.1]
      refine List.pairwise_cons.mpr ⟨?_, ih _ r'.1 r'.2 hrec⟩
      intro q hq a ha b hb
      have hb' := backwardRun_blocks_lt server fromBlock Hserver fuel _ r'.1 r'.2
        hrec q hq b hb
      have ha' : a ∈ (server cursor).txs := (List.mem_filter.mp ha).1
      have hmin := getLastD_min_of_desc (server cursor).txs (Hdesc cursor) ⟨"", 0⟩ a ha'
      omega

/-- C5: with a server honouring the `before cursor` contract and returning
pages in descending block order (the ordering the source relies on), the
backward traversal's final aggregate is sorted ascending by block number and
contains no duplicate records across pages: any two records collected from
two different pages are distinct. -/
theorem backward_sorted_nodup (server : Int → AddressTransactionPage)
    (fromBlock toBlock fuel : Nat)
    (Hserver : ∀ c : Int, ∀ tx ∈ (server c).txs, (tx.blockNumber : Int) < c)
    (Hdesc : ∀ c : Int,
      List.Pairwise (fun a b => b.blockNumber ≤ a.blockNumber) (server c).txs) :
    (∀ res, getAllTransactionsForAddress server fromBlock toBlock fuel = some res →
        List.Pairwise (fun a b => a.blockNumber ≤ b.blockNumber) res) ∧
    (∀ pages cursors,
        backwardRun server fromBlock fuel (toBlock : Int) = some (pages, cursors) →
        List.Pairwise (fun p q => ∀ a ∈ p, ∀ b ∈ q, a ≠ b) pages) := by
  constructor
  · intro res hres
    unfold getAllTransactionsForAddress at hres
    cases hrun : backwardRun server fromBlock fuel (toBlock : Int) with
    | none => rw [hrun] at hres; simp at hres
    | some r =>
      rw [hrun] at hres
      have hres' : sortByBlockNumber r.1.flatten = res := by simpa using hres
      rw [← hres']
      exact sortByBlockNumber_sorted _
  · intro pages cursors h
    have hdesc := backwardRun_pages_desc server fromBlock Hserver Hdesc fuel _ pages cursors h
    refine hdesc.imp ?_
    intro p q hpq a ha b hb heq
    have hlt := hpq a ha b hb
    rw [heq] at hlt
    exact absurd hlt (lt_irrefl _)

/-- A two-page descending server used to witness C5: cursor 200 serves blocks
[180, 150], cursor 149 serves block [140] flagged as the first page. -/
def serverC5 : Int → AddressTransactionPage :=
  fun c =>
    if c = 200 then { txs := [⟨"p", 180⟩, ⟨"q", 150⟩], firstPage := false, lastPage := false }
    else if c = 149 then { txs := [⟨"r", 140⟩], firstPage := true, lastPage := false }
    else { txs := [], firstPage := false, lastPage := false }

/-- C5 witness: running the traversal over `serverC5` yields the aggregate at
blocks [140, 150, 180]; its sortedness instantiates to the three pairwise
block-number inequalities stated here. -/
theorem backward_sorted_nodup_witness :
    (⟨"r", 140⟩ : TransactionDetails).blockNumber ≤
        (⟨"q", 150⟩ : TransactionDetails).blockNumber ∧
      (⟨"r", 140⟩ : TransactionDetails).blockNumber ≤
        (⟨"p", 180⟩ : TransactionDetails).blockNumber ∧
      (⟨"q", 150⟩ : TransactionDetails).blockNumber ≤
        (⟨"p", 180⟩ : TransactionDetails).blockNumber := by
  have Hserver : ∀ c : Int, ∀ tx ∈ (serverC5 c).txs, (tx.blockNumber : Int) < c := by
    intro c tx htx
    unfold serverC5 at htx
    split_ifs at htx with h1 h2
    · subst h1
      simp at htx
      rcases htx with h | h <;> rw [h] <;> decide
    · subst h2
      simp at htx
      rw [htx]
      decide
    · simp at htx
  have Hdesc : ∀ c : Int,
      List.Pairwise (fun a b => b.blockNumber ≤ a.blockNumber) (serverC5 c).txs := by
    intro c
    unfold serverC5
    split_ifs <;> decide
  have h := (backward_sorted_nodup serverC5 0 200 3 Hserver Hdesc).1
    [⟨"r", 140⟩, ⟨"q", 150⟩, ⟨"p", 180⟩] (by rfl)
  rcases List.pairwise_cons.mp h with ⟨h1, h2⟩
  rcases List.pairwise_cons.mp h2 with ⟨h3, -⟩
  exact ⟨h1 _ (by simp), h1 _ (by simp), h3 _ (by simp)⟩

/-! ## Forward traversal theorems -/

/-- The forward loop over `m + 1` pages, the last of which is flagged
`lastPage`, concatenates the pages' records in order and requests consecutive
page indices. -/
theorem forwardRun_concat (server : Nat → BlockTransactionPage) :
    ∀ (m fuel start : Nat), m + 1 ≤ fuel →
      (∀ j, j < m → (server (start + j)).lastPage = false) →
      (server (start + m)).lastPage = true →
      forwardRun server fuel start =
        some ((((List.range (m + 1)).map (fun j => (server (start + j)).txs)).flatten),
          (List.range (m + 1)).map (fun j => start + j)) := by
  intro m
  induction m with
  | zero =>
    intro fuel start hfuel hmid hlast
    rcases fuel with _ | f
    · omega
    · rw [Nat.add_zero] at hlast
      have hr1 : List.range 1 = [0] := rfl
      simp [forwardRun, hlast, hr1]
  | succ m ih =>
    intro fuel start hfuel hmid hlast
    rcases fuel with _ | f
    · omega
    · have h0 : (server start).lastPage = false := by
        have := hmid 0 (by omega)
        rwa [Nat.add_zero] at this
      have hrec := ih f (start + 1) (by omega)
        (fun j hj => by
          have hx := hmid (j + 1) (by omega)
          rwa [show start + (j + 1) = start + 1 + j by omega] at hx)
        (by
          have hx := hlast
          rwa [show start + (m + 1) = start + 1 + m by omega] at hx)
      have hshift : ∀ j : Nat, start + 1 + j = start + (j + 1) := fun j => by omega
      simp only [hshift] at hrec
      have hflat : (List.map (fun j => (server (start + j)).txs)
            (List.range (m + 1 + 1))).flatten =
          (server start).txs ++
            (List.map (fun j => (server (start + (j + 1))).txs)
              (List.range (m + 1))).flatten := by
        rw [List.range_succ_eq_map]
        simp only [List.map_cons, List.flatten_cons, Nat.add_zero, List.map_map]
        congr 1
      have hidxs : List.map (fun j => start + j) (List.range (m + 1 + 1)) =
          start :: List.map (fun j => start + (j + 1)) (List.range (m + 1)) := by
        rw [List.range_succ_eq_map]
        simp only [List.map_cons, Nat.add_zero, List.map_map]
        congr 1
      simp only [forwardRun, h0, Bool.false_eq_true, if_false, hrec, hflat, hidxs]

/-- C6: for the forward block-transaction traversal over N pages where every
page but the Nth reports `lastPage = false`, the loop requests page indices
0 through N−1 in order, and the aggregate is exactly the concatenation of the
N pages' records in server order — no re-sort, no record dropped. -/
theorem forward_completeness (server : Nat → BlockTransactionPage) (N fuel : Nat)
    (hN : 1 ≤ N) (hfuel : N ≤ fuel)
    (hmid : ∀ i, i + 1 < N → (server i).lastPage = false)
    (hlast : (server (N - 1)).lastPage = true) :
    forwardRun server fuel 0 =
      some ((((List.range N).map (fun i => (server i).txs)).flatten), List.range N) ∧
    getBlockWithTransactions server fuel =
      some (((List.range N).map (fun i => (server i).txs)).flatten) := by
  obtain ⟨m, rfl⟩ : ∃ m, N = m + 1 := ⟨N - 1, by omega⟩
  have h := forwardRun_concat server m fuel 0 (by omega)
    (fun j hj => by simpa using hmid j (by omega))
    (by simpa using hlast)
  have h' : forwardRun server fuel 0 =
      some ((((List.range (m + 1)).map (fun i => (server i).txs)).flatten),
        List.range (m + 1)) := by
    simpa using h
  refine ⟨h', ?_⟩
  unfold getBlockWithTransactions
  rw [h']
  rfl

/-- A two-page block server used to witness C6. -/
def serverC6 : Nat → BlockTransactionPage :=
  fun i =>
    if i = 0 then { txs := [⟨"t1", 7⟩], firstPage := true, lastPage := false }
    else { txs := [⟨"t2", 7⟩], firstPage := false, lastPage := true }

/-- C6 witness: two pages, the second flagged `lastPage`; the loop requests
indices [0, 1] and returns both records in server order. -/
theorem forward_completeness_witness :
    forwardRun serverC6 2 0 =
      some ([(⟨"t1", 7⟩ : TransactionDetails), ⟨"t2", 7⟩], [0, 1]) := by
  have h := (forward_completeness serverC6 2 2 (by omega) (le_refl 2)
    (fun i hi => by
      have hz : i = 0 := by omega
      rw [hz]
      rfl)
    rfl).1
  simpa using h

end Otterscan
